import Mathlib

/-!
Verification development for the `bootcamps` controller of the learndev
repository (`src/controllers/bootcamps.js`) and its router.

The controller's list endpoint (`getBootcamps`) builds a MongoDB filter by
JSON-stringifying the query object, rewriting the comparison tokens
`gt|gte|lt|lte|in` (at word boundaries) to their `$`-prefixed operator form,
and re-parsing the string; it then pages the results with
`parseInt(x, 10) || default` arithmetic.  This file embeds that pipeline
shallowly: JavaScript strings become Lean `String`s, the query object becomes
an association list, `JSON.stringify` / the regex replace / `JSON.parse` are
implemented character by character, JavaScript numbers are modelled as exact
rationals (with an explicit NaN / infinity marker where coercion semantics
matter), and each request handler becomes a pure function from its inputs to
the outcome it produces (the query it issues to the storage layer, or the
error it forwards).
-/

/-! ## Query objects

`req.query` as produced by the framework's query-string parser: an ordered
mapping from string keys to either a plain string value or a one-level nested
object of string values (`?a[gte]=5` parses to `a ↦ {gte ↦ "5"}`).  Repeated
keys, array values and deeper nesting are out of scope, as is the JS engine's
re-ordering of integer-like keys in object spreads. -/

inductive QVal where
  | str (s : String)
  | obj (fields : List (String × String))
  deriving DecidableEq

abbrev Query := List (String × QVal)

/-- A stored document, as far as the model needs it: a flat mapping from
field names to string values. -/
abbrev Doc := List (String × String)

/-! ## The word-boundary regex rewrite

`queryStr.replace(/\b(gt|gte|lt|lte|in)\b/g, match => `$` + match)` from
`getBootcamps`.  A match of `\b(gt|gte|lt|lte|in)\b` is exactly a maximal run
of word characters (`[A-Za-z0-9_]`, the regex `\w` class) equal to one of the
five tokens, so the replace is implemented as a scanner that accumulates the
current word run and prefixes `'$'` to it when it is a token. -/

/-- The regex word-character class `\w`, i.e. `[A-Za-z0-9_]`. -/
def isWordChar (c : Char) : Bool :=
  (48 ≤ c.toNat && c.toNat ≤ 57) || (65 ≤ c.toNat && c.toNat ≤ 90) ||
    (97 ≤ c.toNat && c.toNat ≤ 122) || c.toNat == 95

/-- The five comparison tokens recognised by the rewrite regex. -/
def opTokens : List (List Char) :=
  [['g', 't'], ['g', 't', 'e'], ['l', 't'], ['l', 't', 'e'], ['i', 'n']]

/-- Replacement applied to one maximal word run: prefix `'$'` when the run is
one of the five comparison tokens, keep it unchanged otherwise. -/
def rwRun (r : List Char) : List Char :=
  if r ∈ opTokens then '$' :: r else r

/-- Scanner implementing the global regex replace: `acc` holds the current
word run in reverse. -/
def rewriteAux (acc : List Char) : List Char → List Char
  | [] => rwRun acc.reverse
  | c :: cs =>
    if isWordChar c then rewriteAux (c :: acc) cs
    else rwRun acc.reverse ++ c :: rewriteAux [] cs

/-- The regex replace of line 26 of the controller, on character lists. -/
def rewriteChars (cs : List Char) : List Char :=
  rewriteAux [] cs

/-- The regex replace of line 26 of the controller, on strings. -/
def rewriteOps (s : String) : String :=
  ⟨rewriteChars s.data⟩

/-! ## JSON.stringify for query objects -/

/-- Hexadecimal digit character, lower case, as used by `JSON.stringify`'s
`\u00XX` escapes. -/
def hexDigitChar (n : Nat) : Char :=
  if n < 10 then Char.ofNat (48 + n) else Char.ofNat (87 + n)

/-- The escape `JSON.stringify` applies to one character of a string: quote
and backslash get a backslash escape, the controls with short forms get those
(`\b \t \n \f \r`), the remaining controls get `\u00XX`, and every other
character is emitted verbatim. -/
def escChar (c : Char) : List Char :=
  if c = '"' then ['\\', '"']
  else if c = '\\' then ['\\', '\\']
  else if c.toNat = 8 then ['\\', 'b']
  else if c.toNat = 9 then ['\\', 't']
  else if c.toNat = 10 then ['\\', 'n']
  else if c.toNat = 12 then ['\\', 'f']
  else if c.toNat = 13 then ['\\', 'r']
  else if c.toNat < 32 then
    ['\\', 'u', '0', '0', hexDigitChar (c.toNat / 16), hexDigitChar (c.toNat % 16)]
  else [c]

def escapeChars (cs : List Char) : List Char :=
  cs.flatMap escChar

/-- A JSON string literal: opening quote, escaped contents, closing quote. -/
def qstr (s : String) : List Char :=
  '"' :: escapeChars s.data ++ ['"']

def innerEntryChars (p : String × String) : List Char :=
  qstr p.1 ++ ':' :: qstr p.2

def innerEntriesChars : List (String × String) → List Char
  | [] => []
  | [p] => innerEntryChars p
  | p :: ps => innerEntryChars p ++ ',' :: innerEntriesChars ps

/-- `JSON.stringify` of a one-level nested object of strings. -/
def stringifyInner (ps : List (String × String)) : List Char :=
  '{' :: innerEntriesChars ps ++ ['}']

def entryValChars : QVal → List Char
  | .str s => qstr s
  | .obj ps => stringifyInner ps

def entryChars (e : String × QVal) : List Char :=
  qstr e.1 ++ ':' :: entryValChars e.2

def entriesChars : Query → List Char
  | [] => []
  | [e] => entryChars e
  | e :: es => entryChars e ++ ',' :: entriesChars es

/-- `JSON.stringify` of a query object (line 23 of the controller). -/
def stringifyQ (q : Query) : String :=
  ⟨'{' :: entriesChars q ++ ['}']⟩

/-! ## JSON.parse for the object fragment

`JSON.parse` restricted to the grammar reachable from the pipeline: an object
whose values are strings or one-level nested objects of strings, with no
whitespace.  The parser is strict where `JSON.parse` is strict on this
fragment: unterminated strings, invalid escapes, raw control characters in
strings, and trailing garbage are all rejected. -/

def hexVal (c : Char) : Option Nat :=
  if 48 ≤ c.toNat ∧ c.toNat ≤ 57 then some (c.toNat - 48)
  else if 97 ≤ c.toNat ∧ c.toNat ≤ 102 then some (c.toNat - 87)
  else if 65 ≤ c.toNat ∧ c.toNat ≤ 70 then some (c.toNat - 55)
  else none

/-- Single-character escapes accepted by `JSON.parse`. -/
def unescChar (c : Char) : Option Char :=
  if c = '"' then some '"'
  else if c = '\\' then some '\\'
  else if c = '/' then some '/'
  else if c = 'b' then some (Char.ofNat 8)
  else if c = 't' then some (Char.ofNat 9)
  else if c = 'n' then some (Char.ofNat 10)
  else if c = 'f' then some (Char.ofNat 12)
  else if c = 'r' then some (Char.ofNat 13)
  else none

/-- String-literal scanner, entered just after the opening quote: returns the
unescaped contents and the input remaining after the closing quote.  The
scanner consumes at least one character per step, so fuel equal to the input
length always suffices; `parseLit` supplies exactly that. -/
def parseStrAux : Nat → List Char → Option (List Char × List Char)
  | 0, _ => none
  | fuel + 1, cs =>
    match cs with
    | [] => none
    | c :: r =>
      if c = '"' then some ([], r)
      else if c = '\\' then
        match r with
        | 'u' :: h1 :: h2 :: h3 :: h4 :: r' =>
          match hexVal h1, hexVal h2, hexVal h3, hexVal h4 with
          | some a, some b, some hc, some d =>
            (parseStrAux fuel r').map fun pr =>
              (Char.ofNat (a * 4096 + b * 256 + hc * 16 + d) :: pr.1, pr.2)
          | _, _, _, _ => none
        | e :: r' =>
          match unescChar e with
          | some ce => (parseStrAux fuel r').map fun pr => (ce :: pr.1, pr.2)
          | none => none
        | [] => none
      else if c.toNat < 32 then none
      else (parseStrAux fuel r).map fun pr => (c :: pr.1, pr.2)

/-- A JSON string literal, starting at the opening quote. -/
def parseLit : List Char → Option (String × List Char)
  | '"' :: r => (parseStrAux r.length r).map fun pr => (⟨pr.1⟩, pr.2)
  | _ => none

/-- Members of a nested (string-valued) object, entered after its `{`; the
fuel bounds the number of members and is in practice the input length. -/
def parseInnerPairs : Nat → List Char → Option (List (String × String) × List Char)
  | 0, _ => none
  | fuel + 1, cs =>
    (parseLit cs).bind fun (k, r1) =>
      match r1 with
      | ':' :: r2 =>
        (parseLit r2).bind fun (v, r3) =>
          match r3 with
          | ',' :: r4 => (parseInnerPairs fuel r4).map fun pr => ((k, v) :: pr.1, pr.2)
          | '}' :: r4 => some ([(k, v)], r4)
          | _ => none
      | _ => none

/-- A member value: a string literal or a nested object. -/
def parseVal (fuel : Nat) (cs : List Char) : Option (QVal × List Char) :=
  match cs with
  | '{' :: r =>
    match r with
    | '}' :: r2 => some (.obj [], r2)
    | _ => (parseInnerPairs fuel r).map fun pr => (.obj pr.1, pr.2)
  | cs => (parseLit cs).map fun pr => (.str pr.1, pr.2)

/-- Members of the top-level object, entered after its `{`. -/
def parseTopPairs : Nat → List Char → Option (Query × List Char)
  | 0, _ => none
  | fuel + 1, cs =>
    (parseLit cs).bind fun (k, r1) =>
      match r1 with
      | ':' :: r2 =>
        (parseVal fuel r2).bind fun (v, r3) =>
          match r3 with
          | ',' :: r4 => (parseTopPairs fuel r4).map fun pr => ((k, v) :: pr.1, pr.2)
          | '}' :: r4 => some ([(k, v)], r4)
          | _ => none
      | _ => none

/-- `JSON.parse` on the reachable object fragment; `none` models a thrown
`SyntaxError`. -/
def parseQ (s : String) : Option Query :=
  match s.data with
  | '{' :: rest =>
    match rest with
    | '}' :: rest2 => if rest2 = [] then some [] else none
    | _ =>
      match parseTopPairs rest.length rest with
      | some (q, []) => some q
      | _ => none
  | _ => none

/-! ## The filter pipeline of `getBootcamps` (lines 14–31) -/

/-- The reserved keys removed from the copied query (line 17). -/
def removeFields : List String :=
  ["select", "sort", "page", "limit"]

/-- Lines 14–20: copy `req.query` and delete the reserved keys. -/
def reqQueryOf (rq : Query) : Query :=
  rq.filter fun p => decide (p.1 ∉ removeFields)

/-- Lines 23–31: stringify the stripped query, `$`-prefix the comparison
tokens, and re-parse; `none` models a `JSON.parse` failure (which the
`asyncHandler` wrapper would surface as an error response). -/
def getBootcampsFilter (rq : Query) : Option Query :=
  parseQ (rewriteOps (stringifyQ (reqQueryOf rq)))

/-! ## Pagination (lines 50–78) -/

/-- JS whitespace skipped by `parseInt`. -/
def isJsWhitespace (c : Char) : Bool :=
  c.toNat == 9 || c.toNat == 10 || c.toNat == 11 || c.toNat == 12 ||
    c.toNat == 13 || c.toNat == 32 || c.toNat == 160 || c.toNat == 0x2028 ||
    c.toNat == 0x2029 || c.toNat == 0xFEFF

def decDigitsVal (ds : List Char) : Nat :=
  ds.foldl (fun a c => a * 10 + (c.toNat - 48)) 0

def parseDecDigits (cs : List Char) : Option Nat :=
  let ds := cs.takeWhile Char.isDigit
  if ds.isEmpty then none else some (decDigitsVal ds)

/-- JavaScript `parseInt(s, 10)`: skip whitespace, optional sign, then the
longest prefix of decimal digits; `none` models the `NaN` result.  (The
float precision loss on very long digit strings is not modelled.) -/
def parseIntJs (s : String) : Option Int :=
  match s.data.dropWhile isJsWhitespace with
  | '-' :: r => (parseDecDigits r).map fun n => -(n : Int)
  | '+' :: r => (parseDecDigits r).map fun n => (n : Int)
  | r => (parseDecDigits r).map fun n => (n : Int)

/-- `parseInt(req.query.k, 10)`: an absent key coerces to the string
`"undefined"`, a nested object to `"[object Object]"`; both parse to NaN. -/
def parseIntParam (rq : Query) (k : String) : Option Int :=
  match rq.lookup k with
  | none => parseIntJs "undefined"
  | some (.str s) => parseIntJs s
  | some (.obj _) => parseIntJs "[object Object]"

/-- JavaScript `x || d` for `x` a number or NaN: NaN and `0` (also `-0`) are
falsy and yield the default. -/
def jsOr (v : Option Int) (d : Int) : Int :=
  match v with
  | none => d
  | some n => if n = 0 then d else n

/-- Line 50: `const page = parseInt(req.query.page, 10) || 1`. -/
def pageOf (rq : Query) : Int :=
  jsOr (parseIntParam rq "page") 1

/-- Line 51: `const limit = parseInt(req.query.limit, 10) || 25`. -/
def limitOf (rq : Query) : Int :=
  jsOr (parseIntParam rq "limit") 25

/-! ## The storage collaborator and the full list outcome

The storage layer (Mongoose/MongoDB) is an external collaborator; the model
keeps just what the claims need: `countDocuments()` with no argument is the
size of the whole collection, and a filter built by the pipeline matches a
document per MongoDB's query semantics on string-valued fields (exact match
for plain values; `$gt`/`$gte`/`$lt`/`$lte` compare strings; `$in` applied to
a non-array operand and unknown/plain nested keys match nothing, standing in
for the server rejecting such filters). -/

def opMatch (op : String) (arg : String) (fieldVal : Option String) : Bool :=
  match fieldVal with
  | none => false
  | some v =>
    if op = "$gt" then decide (arg < v)
    else if op = "$gte" then decide (arg < v) || decide (arg = v)
    else if op = "$lt" then decide (v < arg)
    else if op = "$lte" then decide (v < arg) || decide (v = arg)
    else false

def matchesFilter (f : Query) (d : Doc) : Bool :=
  f.all fun p =>
    match p.2 with
    | .str s => decide (d.lookup p.1 = some s)
    | .obj ops => ops.all fun o => opMatch o.1 o.2 (d.lookup p.1)

/-- The number of records that match a filter, ignoring pagination — the
quantity the specification calls `totalCount`. -/
def matchedCount (f : Query) (db : List Doc) : Nat :=
  (db.filter (matchesFilter f)).length

/-- The find issued to the storage layer by the list endpoint: the parsed
filter plus `skip`/`limit` (field selection and sort order are passed along
unchanged and are not claim-relevant, so they are not modelled). -/
structure IssuedFind where
  filter : Query
  skip : Int
  limit : Int
  deriving DecidableEq

/-- The `pagination` object of the response: optional `next`/`prev`
descriptors carrying `(page, limit)`. -/
structure PagDescr where
  next : Option (Int × Int)
  prev : Option (Int × Int)
  deriving DecidableEq

structure ListOutcome where
  find : IssuedFind
  totalEntries : Nat
  pagination : PagDescr
  deriving DecidableEq

/-- Lines 10–80 of the controller: build the filter, compute
`page`/`limit`/`startIndex`/`endIndex`, take `totalEntries` from the
unconditional `Bootcamp.countDocuments()`, and assemble the pagination
descriptor.  `none` models the handler failing before reaching the storage
layer (a `JSON.parse` throw caught by `asyncHandler`). -/
def getBootcamps (rq : Query) (db : List Doc) : Option ListOutcome :=
  (getBootcampsFilter rq).map fun f =>
    let page := pageOf rq
    let limit := limitOf rq
    let startIndex := (page - 1) * limit
    let endIndex := page * limit
    let totalEntries := db.length
    { find := { filter := f, skip := startIndex, limit := limit }
      totalEntries := totalEntries
      pagination :=
        { next := if endIndex < (totalEntries : Int) then some (page + 1, limit) else none
          prev := if 0 < startIndex then some (page - 1, limit) else none } }

/-! ## The radius endpoint (lines 142–165)

JavaScript numbers are modelled as exact rationals together with markers for
NaN and the infinities, enough to express the `ToNumber` coercion that
`distance / 6378` applies to the route parameter string. -/

inductive JsNum where
  | nan
  | inf (pos : Bool)
  | num (q : ℚ)
  deriving DecidableEq

/-- Decimal literal with optional fraction and exponent, as accepted by the
`ToNumber` string grammar; returns its exact rational value. -/
def parseDecimalNum (cs : List Char) : Option ℚ :=
  let intDs := cs.takeWhile Char.isDigit
  let rest1 := cs.dropWhile Char.isDigit
  let (fracDs, rest2) :=
    match rest1 with
    | '.' :: r => (r.takeWhile Char.isDigit, r.dropWhile Char.isDigit)
    | r => ([], r)
  if intDs.isEmpty ∧ fracDs.isEmpty then none
  else
    let mant : ℚ :=
      if fracDs.isEmpty then (decDigitsVal intDs : ℚ)
      else (decDigitsVal intDs : ℚ) + (decDigitsVal fracDs : ℚ) / ((10 : ℚ) ^ fracDs.length)
    match rest2 with
    | [] => some mant
    | 'e' :: r => (parseExpPart r).map fun e => mant * (10 : ℚ) ^ e
    | 'E' :: r => (parseExpPart r).map fun e => mant * (10 : ℚ) ^ e
    | _ => none
where
  parseExpPart (r : List Char) : Option Int :=
    match r with
    | '-' :: ds => if ds ≠ [] ∧ ds.all Char.isDigit then some (-(decDigitsVal ds : Int)) else none
    | '+' :: ds => if ds ≠ [] ∧ ds.all Char.isDigit then some ((decDigitsVal ds : Int)) else none
    | ds => if ds ≠ [] ∧ ds.all Char.isDigit then some ((decDigitsVal ds : Int)) else none

def isHexDigit (c : Char) : Bool :=
  (48 ≤ c.toNat && c.toNat ≤ 57) || (97 ≤ c.toNat && c.toNat ≤ 102) ||
    (65 ≤ c.toNat && c.toNat ≤ 70)

def hexDigitsVal (ds : List Char) : Nat :=
  ds.foldl (fun a c => a * 16 + ((hexVal c).getD 0)) 0

/-- JavaScript `ToNumber` applied to a string (the coercion performed by
`distance / 6378`): trimmed empty string is `0`, `Infinity` is recognised,
decimal and `0x`-prefixed literals are parsed exactly, anything else is NaN.
(`0o`/`0b` literals, and the float rounding of the result, are not
modelled.) -/
def strToNumber (s : String) : JsNum :=
  let cs := (s.data.dropWhile isJsWhitespace).reverse.dropWhile isJsWhitespace |>.reverse
  match cs with
  | [] => .num 0
  | '0' :: 'x' :: ds =>
    if ds ≠ [] ∧ ds.all isHexDigit then .num (hexDigitsVal ds : ℚ) else .nan
  | '0' :: 'X' :: ds =>
    if ds ≠ [] ∧ ds.all isHexDigit then .num (hexDigitsVal ds : ℚ) else .nan
  | '-' :: r =>
    if r = "Infinity".data then .inf false
    else match parseDecimalNum r with
      | some q => .num (-q)
      | none => .nan
  | '+' :: r =>
    if r = "Infinity".data then .inf true
    else match parseDecimalNum r with
      | some q => .num q
      | none => .nan
  | r =>
    if r = "Infinity".data then .inf true
    else match parseDecimalNum r with
      | some q => .num q
      | none => .nan

/-- JavaScript division on the modelled numbers. -/
def jsDiv (a b : JsNum) : JsNum :=
  match a, b with
  | .nan, _ => .nan
  | _, .nan => .nan
  | .inf _, .inf _ => .nan
  | .inf pa, .num qb => if qb < 0 then .inf (!pa) else .inf pa
  | .num _, .inf _ => .num 0
  | .num qa, .num qb =>
    if qb = 0 then (if qa = 0 then .nan else .inf (decide (0 ≤ qa)))
    else .num (qa / qb)

/-- What the radius handler hands to its collaborators: either the
`$geoWithin`/`$centerSphere` find it issues, or an error forwarded to
`next()`.  The handler body has no error branch, but the outcome type keeps
one so that "returns a 400" is expressible. -/
inductive RadiusOutcome where
  | issuedFind (lng lat : ℚ) (radius : JsNum)
  | errorNext (status : Nat) (msg : String)
  deriving DecidableEq

/-- Lines 142–165: with the geocoded centre in hand, compute
`radius = distance / 6378` (ToNumber coercion of the route parameter) and
issue the geospatial find.  There is no validation step. -/
def getBootcampsInRadius (lat lng : ℚ) (distance : String) : RadiusOutcome :=
  .issuedFind lng lat (jsDiv (strToNumber distance) (.num 6378))

/-- Whether an outcome is a 400-equivalent validation error. -/
def isValidationError : RadiusOutcome → Bool
  | .errorNext 400 _ => true
  | _ => false

/-- Whether an outcome reached the storage layer. -/
def reachesStorage : RadiusOutcome → Bool
  | .issuedFind _ _ _ => true
  | _ => false

/-! ## The photo upload endpoint (lines 170–216) -/

structure UploadFile where
  name : String
  mimetype : String
  size : Nat
  deriving DecidableEq

inductive UploadOutcome where
  | errorNext (status : Nat) (msg : String)
  | moveAndRespond (destName : String)
  deriving DecidableEq

/-- `path.parse(name).ext`: the suffix from the last dot, empty when there is
no dot or the only dot starts the name. -/
def extOf (name : String) : String :=
  let tail := name.data.reverse.takeWhile (· != '.')
  if tail.length + 1 < name.data.length then ⟨'.' :: tail.reverse⟩ else ""

/-- JavaScript `String.prototype.startsWith`. -/
def jsStartsWith (s pre : String) : Bool :=
  pre.data.isPrefixOf s.data

/-- Lines 170–216: the checks of `bootcampPhotoUpload` in source order —
bootcamp existence (404), file presence (400), mimetype (400), size (400,
strict `>` against `MAX_FILE_UPLOAD`) — followed by the move/rename.
`bootcamp` is the result of the awaited `findById`; `maxFileUpload` is the
configured numeric `process.env.MAX_FILE_UPLOAD`. -/
def bootcampPhotoUpload (id : String) (bootcamp : Option String)
    (files : Option UploadFile) (maxFileUpload : Nat) : UploadOutcome :=
  match bootcamp with
  | none => .errorNext 404 ("Bootcamp id " ++ id ++ " not found")
  | some bootcampId =>
    match files with
    | none => .errorNext 400 "Please upload a file"
    | some file =>
      if ¬jsStartsWith file.mimetype "image" then
        .errorNext 400 "Please upload an image file"
      else if maxFileUpload < file.size then
        .errorNext 400 ("Please upload an image less than " ++ toString maxFileUpload ++ " bytes")
      else
        .moveAndRespond ("photo_" ++ bootcampId ++ extOf file.name)


/-! ## Structural description of the pipeline's effect

`vopStr` describes, string by string, what the stringify / regex-rewrite /
parse round trip of the controller does to one key or value: every maximal
word run equal to a comparison token is `$`-prefixed, except runs glued (in
the serialized form) to the trailing word character of a preceding control
character's escape (`\n`, `\u001f`, ...).  `filterOf` lifts this over a
query object.  These are derived descriptions, proved below to coincide with
the code's pipeline; they are what the claims are checked against. -/

def vopFlush (glued : Bool) (r : List Char) : List Char :=
  if glued then r else rwRun r

def vopAux (glued : Bool) (acc : List Char) : List Char → List Char
  | [] => vopFlush glued acc.reverse
  | c :: cs =>
    if isWordChar c then vopAux glued (c :: acc) cs
    else vopFlush glued acc.reverse ++ c :: vopAux (decide (c.toNat < 32)) [] cs

def vopStr (s : String) : String :=
  ⟨vopAux false [] s.data⟩

def vopVal : QVal → QVal
  | .str s => .str (vopStr s)
  | .obj ps => .obj (ps.map fun r => (vopStr r.1, vopStr r.2))

/-- What the pipeline makes of a (already reserved-key-stripped) query. -/
def filterOf (q : Query) : Query :=
  q.map fun p => (vopStr p.1, vopVal p.2)

/-- Claim C1's reading of the rewrite: only values that are comparison
tokens are rewritten to operator form; keys and all other values pass
through unchanged.  (Stated from the specification's words, for comparison
with the pipeline.) -/
def specC1Val : QVal → QVal
  | .str s => if s.data ∈ opTokens then .str ⟨'$' :: s.data⟩ else .str s
  | .obj ops =>
    .obj (ops.map fun o => (if o.1.data ∈ opTokens then (⟨'$' :: o.1.data⟩ : String) else o.1, o.2))

def specC1Filter (rq : Query) : Query :=
  (reqQueryOf rq).map fun p => (p.1, specC1Val p.2)

/-! ## Helper continuations used by the characterization lemmas -/

/-- Continuation applied to the part after the current word run. -/
def tailRewrite : List Char → List Char
  | [] => []
  | c :: r => c :: rewriteAux [] r

def tailVop : List Char → List Char
  | [] => []
  | c :: r => c :: vopAux (decide (c.toNat < 32)) [] r

/-- The segment of the rewritten serialized string that corresponds to one
escaped key or value: in an unglued position it is just the rewrite of the
escape; in a glued position (directly after the word-character tail of a
control escape) the leading word run has already been emitted by the
scanner as part of the preceding run. -/
def escRewr (glued : Bool) (cs : List Char) : List Char :=
  if glued then
    (escapeChars cs).takeWhile isWordChar ++ rewriteChars ((escapeChars cs).dropWhile isWordChar)
  else rewriteChars (escapeChars cs)

/-! ## Lemmas: the rewrite scanner

The characterization used throughout: `rewriteChars` maps each maximal word
run through `rwRun` and copies every other character, and it distributes over
appends whose right part starts with a non-word character. -/

theorem rwRun_nil : rwRun [] = [] := by decide

theorem mem_opTokens_head {c : Char} {r : List Char} (h : (c :: r) ∈ opTokens) :
    c = 'g' ∨ c = 'l' ∨ c = 'i' := by
  simp only [opTokens, List.mem_cons, List.mem_singleton] at h
  rcases h with h | h | h | h | h <;> simp_all

theorem rwRun_cons_of_head {c : Char} (r : List Char)
    (h : c ≠ 'g' ∧ c ≠ 'l' ∧ c ≠ 'i') : rwRun (c :: r) = c :: r := by
  rw [rwRun, if_neg]
  intro hmem
  rcases mem_opTokens_head hmem with h1 | h1 | h1 <;> simp_all

theorem rewriteAux_eq (cs : List Char) : ∀ acc : List Char,
    rewriteAux acc cs =
      rwRun (acc.reverse ++ cs.takeWhile isWordChar) ++ tailRewrite (cs.dropWhile isWordChar) := by
  induction cs with
  | nil => intro acc; simp [rewriteAux, tailRewrite]
  | cons c cs ih =>
    intro acc
    by_cases hw : isWordChar c
    · rw [rewriteAux, if_pos hw, ih (c :: acc), List.takeWhile_cons_of_pos hw,
        List.dropWhile_cons_of_pos hw]
      simp
    · rw [rewriteAux, if_neg hw, List.takeWhile_cons_of_neg hw, List.dropWhile_cons_of_neg hw]
      simp [tailRewrite]

theorem tailRewrite_dropWhile (l : List Char) :
    tailRewrite (l.dropWhile isWordChar) = rewriteChars (l.dropWhile isWordChar) := by
  have h := List.head?_dropWhile_not isWordChar l
  rcases hd : l.dropWhile isWordChar with _ | ⟨c, r⟩
  · simp [tailRewrite, rewriteChars, rewriteAux, rwRun_nil]
  · rw [hd] at h
    simp only [List.head?_cons] at h
    rw [tailRewrite, rewriteChars, rewriteAux, if_neg (by simp [h]), List.reverse_nil, rwRun_nil,
      List.nil_append]

theorem rewriteChars_nil : rewriteChars [] = [] := by
  simp [rewriteChars, rewriteAux, rwRun_nil]

theorem rewriteChars_cons_not_word {c : Char} (hw : ¬isWordChar c) (cs : List Char) :
    rewriteChars (c :: cs) = c :: rewriteChars cs := by
  rw [rewriteChars, rewriteAux, if_neg hw]
  simp [rwRun_nil, rewriteChars]

theorem rewriteChars_cons_word {c : Char} (hw : isWordChar c) (cs : List Char) :
    rewriteChars (c :: cs) =
      rwRun (c :: cs.takeWhile isWordChar) ++ rewriteChars (cs.dropWhile isWordChar) := by
  rw [rewriteChars, rewriteAux_eq, List.takeWhile_cons_of_pos hw, List.dropWhile_cons_of_pos hw,
    tailRewrite_dropWhile]
  simp

theorem takeWhile_append_not {p : Char → Bool} {c : Char} (hc : ¬p c)
    (xs ys : List Char) : (xs ++ c :: ys).takeWhile p = xs.takeWhile p := by
  induction xs with
  | nil => simp [hc]
  | cons x xs ih =>
    by_cases hx : p x
    · simp [List.takeWhile_cons_of_pos hx, ih]
    · simp [List.takeWhile_cons_of_neg hx]

theorem dropWhile_append_not {p : Char → Bool} {c : Char} (hc : ¬p c)
    (xs ys : List Char) : (xs ++ c :: ys).dropWhile p = xs.dropWhile p ++ c :: ys := by
  induction xs with
  | nil => simp [hc]
  | cons x xs ih =>
    by_cases hx : p x
    · simp [List.dropWhile_cons_of_pos hx, ih]
    · simp [List.dropWhile_cons_of_neg hx]

theorem rewriteChars_append {c : Char} (hc : ¬isWordChar c) :
    ∀ xs ys : List Char, rewriteChars (xs ++ c :: ys) = rewriteChars xs ++ rewriteChars (c :: ys)
  | xs, ys => by
    match hxs : xs with
    | [] => simp [rewriteChars_nil]
    | x :: xs' =>
      by_cases hx : isWordChar x
      · rw [List.cons_append, rewriteChars_cons_word hx, rewriteChars_cons_word hx,
          takeWhile_append_not hc, dropWhile_append_not hc,
          rewriteChars_append hc (xs'.dropWhile isWordChar) ys, List.append_assoc]
      · rw [List.cons_append, rewriteChars_cons_not_word hx, rewriteChars_cons_not_word hx,
          rewriteChars_append hc xs' ys, List.cons_append]
termination_by xs => xs.length
decreasing_by
  · simp only [List.length_cons]
    exact Nat.lt_succ_of_le ((List.dropWhile_sublist _).length_le)
  · simp

theorem rewriteChars_qstr (s : String) (T : List Char) :
    rewriteChars (qstr s ++ T) =
      '"' :: rewriteChars (escapeChars s.data) ++ '"' :: rewriteChars T := by
  have hq : ¬isWordChar '"' := by decide
  rw [qstr]
  rw [show ('"' :: escapeChars s.data ++ ['"']) ++ T = '"' :: (escapeChars s.data ++ '"' :: T) by
    simp]
  rw [rewriteChars_cons_not_word hq, rewriteChars_append hq, rewriteChars_cons_not_word hq]
  simp

theorem length_le_rewriteAux : ∀ (cs acc : List Char),
    acc.length + cs.length ≤ (rewriteAux acc cs).length := by
  intro cs
  induction cs with
  | nil =>
    intro acc
    rw [rewriteAux, rwRun]
    split <;> simp
  | cons c cs ih =>
    intro acc
    by_cases hw : isWordChar c
    · rw [rewriteAux, if_pos hw]
      have := ih (c :: acc)
      simp only [List.length_cons] at this ⊢
      omega
    · rw [rewriteAux, if_neg hw, rwRun]
      have := ih []
      split <;> simp <;> omega

theorem length_le_rewriteChars (cs : List Char) : cs.length ≤ (rewriteChars cs).length := by
  have := length_le_rewriteAux cs []
  simpa [rewriteChars] using this

/-! ## Lemmas: character classes and escapes -/

theorem word_plain {c : Char} (hw : isWordChar c = true) :
    c ≠ '"' ∧ c ≠ '\\' ∧ 32 ≤ c.toNat := by
  simp only [isWordChar, Bool.or_eq_true, Bool.and_eq_true, decide_eq_true_eq,
    beq_iff_eq] at hw
  refine ⟨fun h => ?_, fun h => ?_, by omega⟩
  · subst h; simp at hw
  · subst h; simp at hw

theorem toNat_ne_imp_ne {c d : Char} (h : c.toNat ≠ d.toNat) : c ≠ d := by
  intro he; exact h (by rw [he])

theorem escChar_of_word {c : Char} (hw : isWordChar c = true) : escChar c = [c] := by
  obtain ⟨h1, h2, h3⟩ := word_plain hw
  rw [escChar, if_neg h1, if_neg h2, if_neg (by omega), if_neg (by omega), if_neg (by omega),
    if_neg (by omega), if_neg (by omega), if_neg (by omega)]

/-- Case structure of `escChar` on a non-word character: the escape starts
with a non-word character. -/
theorem escChar_head_not_word {c : Char} (hw : ¬isWordChar c = true) :
    ∃ d t, escChar c = d :: t ∧ ¬isWordChar d = true := by
  have hb : ¬isWordChar '\\' = true := by decide
  by_cases h1 : c = '"'
  · exact ⟨'\\', _, by rw [escChar, if_pos h1], hb⟩
  by_cases h2 : c = '\\'
  · exact ⟨'\\', _, by rw [escChar, if_neg h1, if_pos h2], hb⟩
  by_cases h3 : c.toNat = 8
  · exact ⟨'\\', _, by rw [escChar, if_neg h1, if_neg h2, if_pos h3], hb⟩
  by_cases h4 : c.toNat = 9
  · exact ⟨'\\', _, by rw [escChar, if_neg h1, if_neg h2, if_neg h3, if_pos h4], hb⟩
  by_cases h5 : c.toNat = 10
  · exact ⟨'\\', _, by rw [escChar, if_neg h1, if_neg h2, if_neg h3, if_neg h4, if_pos h5], hb⟩
  by_cases h6 : c.toNat = 12
  · exact ⟨'\\', _, by
      rw [escChar, if_neg h1, if_neg h2, if_neg h3, if_neg h4, if_neg h5, if_pos h6], hb⟩
  by_cases h7 : c.toNat = 13
  · exact ⟨'\\', _, by
      rw [escChar, if_neg h1, if_neg h2, if_neg h3, if_neg h4, if_neg h5, if_neg h6, if_pos h7],
      hb⟩
  by_cases h8 : c.toNat < 32
  · exact ⟨'\\', _, by
      rw [escChar, if_neg h1, if_neg h2, if_neg h3, if_neg h4, if_neg h5, if_neg h6, if_neg h7,
        if_pos h8], hb⟩
  · exact ⟨c, [], by
      rw [escChar, if_neg h1, if_neg h2, if_neg h3, if_neg h4, if_neg h5, if_neg h6, if_neg h7,
        if_neg h8], hw⟩

theorem takeWhile_escapeChars (cs : List Char) :
    (escapeChars cs).takeWhile isWordChar = cs.takeWhile isWordChar := by
  induction cs with
  | nil => simp [escapeChars]
  | cons c cs ih =>
    by_cases hw : isWordChar c
    · rw [escapeChars, List.flatMap_cons, escChar_of_word hw]
      simp only [List.singleton_append, List.takeWhile_cons_of_pos hw]
      rw [← escapeChars, ih]
    · obtain ⟨d, t, he, hd⟩ := escChar_head_not_word hw
      rw [escapeChars, List.flatMap_cons, he]
      simp [List.takeWhile_cons_of_neg hd, List.takeWhile_cons_of_neg hw]

theorem dropWhile_escapeChars (cs : List Char) :
    (escapeChars cs).dropWhile isWordChar = escapeChars (cs.dropWhile isWordChar) := by
  induction cs with
  | nil => simp [escapeChars]
  | cons c cs ih =>
    by_cases hw : isWordChar c
    · rw [escapeChars, List.flatMap_cons, escChar_of_word hw]
      simp only [List.singleton_append, List.dropWhile_cons_of_pos hw,
        List.dropWhile_cons_of_pos hw]
      rw [← escapeChars, ih]
    · obtain ⟨d, t, he, hd⟩ := escChar_head_not_word hw
      rw [escapeChars, List.flatMap_cons, he]
      simp only [List.cons_append, List.dropWhile_cons_of_neg hd,
        List.dropWhile_cons_of_neg hw]
      simp [escapeChars, List.flatMap_cons, he]

/-! ## Lemmas: the vop scanner characterization -/

theorem vopAux_eq (cs : List Char) : ∀ (g : Bool) (acc : List Char),
    vopAux g acc cs =
      vopFlush g (acc.reverse ++ cs.takeWhile isWordChar) ++ tailVop (cs.dropWhile isWordChar) := by
  induction cs with
  | nil => intro g acc; simp [vopAux, tailVop]
  | cons c cs ih =>
    intro g acc
    by_cases hw : isWordChar c
    · rw [vopAux, if_pos hw, ih g (c :: acc), List.takeWhile_cons_of_pos hw,
        List.dropWhile_cons_of_pos hw]
      simp
    · rw [vopAux, if_neg hw, List.takeWhile_cons_of_neg hw, List.dropWhile_cons_of_neg hw]
      simp [tailVop]

theorem vopAux_nil_eq (g : Bool) : vopAux g [] [] = [] := by
  simp [vopAux, vopFlush, rwRun_nil]

theorem vopAux_cons_not_word {c : Char} (hw : ¬isWordChar c = true) (g : Bool) (cs : List Char) :
    vopAux g [] (c :: cs) = c :: vopAux (decide (c.toNat < 32)) [] cs := by
  rw [vopAux, if_neg hw]
  simp [vopFlush, rwRun_nil]

theorem tailVop_dropWhile (l : List Char) :
    tailVop (l.dropWhile isWordChar) = vopAux false [] (l.dropWhile isWordChar) := by
  have h := List.head?_dropWhile_not isWordChar l
  rcases hd : l.dropWhile isWordChar with _ | ⟨c, r⟩
  · simp [tailVop, vopAux_nil_eq]
  · rw [hd] at h
    simp only [List.head?_cons] at h
    rw [tailVop, vopAux_cons_not_word (by simp [h])]


/-! ## Lemmas: the string-literal scanner -/

theorem parseStrAux_succ (f : Nat) (cs : List Char) : parseStrAux (f + 1) cs =
    (match cs with
    | [] => none
    | c :: r =>
      if c = '"' then some ([], r)
      else if c = '\\' then
        match r with
        | 'u' :: h1 :: h2 :: h3 :: h4 :: r' =>
          match hexVal h1, hexVal h2, hexVal h3, hexVal h4 with
          | some a, some b, some hc, some d =>
            (parseStrAux f r').map fun pr =>
              (Char.ofNat (a * 4096 + b * 256 + hc * 16 + d) :: pr.1, pr.2)
          | _, _, _, _ => none
        | e :: r' =>
          match unescChar e with
          | some ce => (parseStrAux f r').map fun pr => (ce :: pr.1, pr.2)
          | none => none
        | [] => none
      else if c.toNat < 32 then none
      else (parseStrAux f r).map fun pr => (c :: pr.1, pr.2)) := rfl

theorem parseStrAux_quote (f : Nat) (r : List Char) :
    parseStrAux (f + 1) ('"' :: r) = some ([], r) := by
  rw [parseStrAux_succ]; rfl

theorem parseStrAux_cons_plain {c : Char} (h1 : c ≠ '"') (h2 : c ≠ '\\')
    (h3 : 32 ≤ c.toNat) (f : Nat) (r : List Char) :
    parseStrAux (f + 1) (c :: r) = (parseStrAux f r).map fun pr => (c :: pr.1, pr.2) := by
  rw [parseStrAux_succ]; dsimp only
  rw [if_neg h1, if_neg h2, if_neg (by omega)]

theorem unescChar_cases {e ce : Char} (he : unescChar e = some ce) :
    (e = '"' ∧ ce = '"') ∨ (e = '\\' ∧ ce = '\\') ∨ (e = '/' ∧ ce = '/') ∨
    (e = 'b' ∧ ce = Char.ofNat 8) ∨ (e = 't' ∧ ce = Char.ofNat 9) ∨
    (e = 'n' ∧ ce = Char.ofNat 10) ∨ (e = 'f' ∧ ce = Char.ofNat 12) ∨
    (e = 'r' ∧ ce = Char.ofNat 13) := by
  rw [unescChar] at he
  split_ifs at he with hc1 hc2 hc3 hc4 hc5 hc6 hc7 hc8 <;> simp_all <;> exact he.symm

theorem parseStrAux_esc {e ce : Char} (he : unescChar e = some ce) (f : Nat) (r : List Char) :
    parseStrAux (f + 1) ('\\' :: e :: r) = (parseStrAux f r).map fun pr => (ce :: pr.1, pr.2) := by
  rcases unescChar_cases he with ⟨he1, he2⟩ | ⟨he1, he2⟩ | ⟨he1, he2⟩ | ⟨he1, he2⟩ |
    ⟨he1, he2⟩ | ⟨he1, he2⟩ | ⟨he1, he2⟩ | ⟨he1, he2⟩ <;>
    subst he1 <;> subst he2 <;> rw [parseStrAux_succ] <;> rfl

theorem parseStrAux_hex {h1 h2 h3 h4 : Char} {a b c d : Nat}
    (e1 : hexVal h1 = some a) (e2 : hexVal h2 = some b) (e3 : hexVal h3 = some c)
    (e4 : hexVal h4 = some d) (f : Nat) (r : List Char) :
    parseStrAux (f + 1) ('\\' :: 'u' :: h1 :: h2 :: h3 :: h4 :: r) =
      (parseStrAux f r).map fun pr =>
        (Char.ofNat (a * 4096 + b * 256 + c * 16 + d) :: pr.1, pr.2) := by
  rw [parseStrAux_succ]
  simp [e1, e2, e3, e4]

theorem parseStrAux_append_plain {p : List Char}
    (hp : ∀ c ∈ p, c ≠ '"' ∧ c ≠ '\\' ∧ 32 ≤ c.toNat) :
    ∀ {f : Nat} {rest : List Char} {res : List Char × List Char},
      parseStrAux f rest = some res →
      parseStrAux (p.length + f) (p ++ rest) = some (p ++ res.1, res.2) := by
  induction p with
  | nil => intro f rest res h; simpa using h
  | cons c p ih =>
    intro f rest res h
    obtain ⟨h1, h2, h3⟩ := hp c (List.mem_cons_self c p)
    have hlen : (c :: p).length + f = (p.length + f) + 1 := by simp; omega
    rw [hlen, List.cons_append, parseStrAux_cons_plain h1 h2 h3,
      ih (fun d hd => hp d (List.mem_cons_of_mem c hd)) h]
    simp

/-! ## Lemmas: structure of the rewritten escape of one string -/

theorem escChar_of_plain {c : Char} (h1 : c ≠ '"') (h2 : c ≠ '\\') (h3 : 32 ≤ c.toNat) :
    escChar c = [c] := by
  rw [escChar, if_neg h1, if_neg h2, if_neg (by omega), if_neg (by omega), if_neg (by omega),
    if_neg (by omega), if_neg (by omega), if_neg (by omega)]

theorem escRewr_nil (g : Bool) : escRewr g [] = [] := by
  cases g <;> simp [escRewr, escapeChars, rewriteChars_nil]

theorem escRewr_not_word_head {c : Char} (hw : ¬isWordChar c = true) (cs : List Char) :
    escRewr true (c :: cs) = escRewr false (c :: cs) := by
  obtain ⟨d, t, he, hd⟩ := escChar_head_not_word hw
  have hE : escapeChars (c :: cs) = d :: (t ++ escapeChars cs) := by
    simp [escapeChars, he]
  simp only [escRewr, if_true, Bool.false_eq_true, if_false]
  rw [hE, List.takeWhile_cons_of_neg hd, List.dropWhile_cons_of_neg hd, List.nil_append]

theorem escRewr_false_plain {c : Char} (h1 : c ≠ '"') (h2 : c ≠ '\\') (h3 : 32 ≤ c.toNat)
    (hw : ¬isWordChar c = true) (cs : List Char) :
    escRewr false (c :: cs) = c :: escRewr false cs := by
  simp only [escRewr, Bool.false_eq_true, if_false]
  rw [show escapeChars (c :: cs) = c :: escapeChars cs by
    simp [escapeChars, escChar_of_plain h1 h2 h3]]
  rw [rewriteChars_cons_not_word hw]

theorem escRewr_false_word {c : Char} (hw : isWordChar c = true) (cs : List Char) :
    escRewr false (c :: cs) =
      rwRun (c :: cs.takeWhile isWordChar) ++ escRewr false (cs.dropWhile isWordChar) := by
  simp only [escRewr, Bool.false_eq_true, if_false]
  rw [show escapeChars (c :: cs) = c :: escapeChars cs by
    simp [escapeChars, escChar_of_word hw]]
  rw [rewriteChars_cons_word hw, takeWhile_escapeChars, dropWhile_escapeChars]

theorem escRewr_true_word {c : Char} (hw : isWordChar c = true) (cs : List Char) :
    escRewr true (c :: cs) =
      (c :: cs.takeWhile isWordChar) ++ escRewr false (cs.dropWhile isWordChar) := by
  simp only [escRewr, if_true, Bool.false_eq_true, if_false]
  rw [show escapeChars (c :: cs) = c :: escapeChars cs by
    simp [escapeChars, escChar_of_word hw]]
  rw [List.takeWhile_cons_of_pos hw, List.dropWhile_cons_of_pos hw, takeWhile_escapeChars,
    dropWhile_escapeChars]

theorem escRewr_false_quote (cs : List Char) :
    escRewr false ('"' :: cs) = '\\' :: '"' :: escRewr false cs := by
  simp only [escRewr, Bool.false_eq_true, if_false]
  rw [show escapeChars ('"' :: cs) = '\\' :: '"' :: escapeChars cs by
    simp [escapeChars, escChar]]
  rw [rewriteChars_cons_not_word (by decide), rewriteChars_cons_not_word (by decide)]

theorem escRewr_false_backslash (cs : List Char) :
    escRewr false ('\\' :: cs) = '\\' :: '\\' :: escRewr false cs := by
  simp only [escRewr, Bool.false_eq_true, if_false]
  rw [show escapeChars ('\\' :: cs) = '\\' :: '\\' :: escapeChars cs by
    simp [escapeChars, escChar]]
  rw [rewriteChars_cons_not_word (by decide), rewriteChars_cons_not_word (by decide)]

theorem escRewr_false_esc_letter {c e : Char} (hc : escChar c = ['\\', e])
    (hew : isWordChar e = true) (he1 : e ≠ 'g') (he2 : e ≠ 'l') (he3 : e ≠ 'i')
    (cs : List Char) :
    escRewr false (c :: cs) = '\\' :: e :: escRewr true cs := by
  simp only [escRewr, Bool.false_eq_true, if_false, if_true]
  rw [show escapeChars (c :: cs) = '\\' :: e :: escapeChars cs by
    simp [escapeChars, hc]]
  rw [rewriteChars_cons_not_word (by decide), rewriteChars_cons_word hew,
    rwRun_cons_of_head _ ⟨he1, he2, he3⟩]
  simp

theorem hexDigitChar_word : ∀ n, n < 16 → isWordChar (hexDigitChar n) = true := by decide

theorem escRewr_false_esc_hex {c : Char} (h32 : c.toNat < 32)
    (hc : escChar c =
      ['\\', 'u', '0', '0', hexDigitChar (c.toNat / 16), hexDigitChar (c.toNat % 16)])
    (cs : List Char) :
    escRewr false (c :: cs) =
      '\\' :: 'u' :: '0' :: '0' :: hexDigitChar (c.toNat / 16) ::
        hexDigitChar (c.toNat % 16) :: escRewr true cs := by
  have hw1 : isWordChar (hexDigitChar (c.toNat / 16)) = true := hexDigitChar_word _ (by omega)
  have hw2 : isWordChar (hexDigitChar (c.toNat % 16)) = true := hexDigitChar_word _ (by omega)
  simp only [escRewr, Bool.false_eq_true, if_false, if_true]
  rw [show escapeChars (c :: cs) =
      '\\' :: 'u' :: '0' :: '0' :: hexDigitChar (c.toNat / 16) ::
        hexDigitChar (c.toNat % 16) :: escapeChars cs by simp [escapeChars, hc]]
  rw [rewriteChars_cons_not_word (by decide),
    rewriteChars_cons_word (by decide : isWordChar 'u' = true),
    List.takeWhile_cons_of_pos (by decide : isWordChar '0' = true),
    List.takeWhile_cons_of_pos (by decide : isWordChar '0' = true),
    List.takeWhile_cons_of_pos hw1, List.takeWhile_cons_of_pos hw2,
    List.dropWhile_cons_of_pos (by decide : isWordChar '0' = true),
    List.dropWhile_cons_of_pos (by decide : isWordChar '0' = true),
    List.dropWhile_cons_of_pos hw1, List.dropWhile_cons_of_pos hw2,
    rwRun_cons_of_head _ ⟨by decide, by decide, by decide⟩]
  simp

theorem hexVal_hexDigitChar : ∀ n, n < 16 → hexVal (hexDigitChar n) = some n := by decide

theorem mem_rwRun {x : Char} {r : List Char} (h : x ∈ rwRun r) : x = '$' ∨ x ∈ r := by
  rw [rwRun] at h
  split at h
  · rcases List.mem_cons.mp h with h | h
    · exact Or.inl h
    · exact Or.inr h
  · exact Or.inr h

theorem vopAux_cons_word_false {c : Char} (hw : isWordChar c = true) (cs : List Char) :
    vopAux false [] (c :: cs) =
      rwRun (c :: cs.takeWhile isWordChar) ++ vopAux false [] (cs.dropWhile isWordChar) := by
  rw [vopAux_eq, List.takeWhile_cons_of_pos hw, List.dropWhile_cons_of_pos hw,
    tailVop_dropWhile]
  simp [vopFlush]

theorem vopAux_cons_word_true {c : Char} (hw : isWordChar c = true) (cs : List Char) :
    vopAux true [] (c :: cs) =
      (c :: cs.takeWhile isWordChar) ++ vopAux false [] (cs.dropWhile isWordChar) := by
  rw [vopAux_eq, List.takeWhile_cons_of_pos hw, List.dropWhile_cons_of_pos hw,
    tailVop_dropWhile]
  simp [vopFlush]

/-! ## The round trip for one string

Parsing the rewritten escape of an arbitrary string succeeds and yields
exactly the `vopAux` description: `$` before each unglued token run, all
other characters unchanged. -/

theorem parseStrAux_escRewr_nil (g : Bool) (S : List Char) (fuel : Nat)
    (hfuel : (escRewr g [] ++ '"' :: S).length ≤ fuel) :
    parseStrAux fuel (escRewr g [] ++ '"' :: S) = some (vopAux g [] [], S) := by
  rw [escRewr_nil, List.nil_append] at hfuel ⊢
  obtain ⟨f, rfl⟩ : ∃ f, fuel = f + 1 := ⟨fuel - 1, by simp at hfuel; omega⟩
  rw [parseStrAux_quote, vopAux_nil_eq]

theorem parseStrAux_escRewr : ∀ (n : Nat) (cs : List Char), cs.length ≤ n →
    ∀ (g : Bool) (S : List Char) (fuel : Nat),
      (escRewr g cs ++ '"' :: S).length ≤ fuel →
      parseStrAux fuel (escRewr g cs ++ '"' :: S) = some (vopAux g [] cs, S) := by
  intro n
  induction n with
  | zero =>
    intro cs hcs g S fuel hfuel
    obtain rfl : cs = [] := List.length_eq_zero.mp (Nat.le_zero.mp hcs)
    exact parseStrAux_escRewr_nil g S fuel hfuel
  | succ m ih =>
    intro cs hcs g S fuel hfuel
    cases cs with
    | nil => exact parseStrAux_escRewr_nil g S fuel hfuel
    | cons c cs' =>
      have hcs' : cs'.length ≤ m := by simp at hcs; omega
      by_cases hw : isWordChar c
      · have hk : (cs'.dropWhile isWordChar).length ≤ m :=
          le_trans (List.dropWhile_sublist _).length_le hcs'
        cases g with
        | false =>
          rw [escRewr_false_word hw, List.append_assoc] at hfuel ⊢
          obtain ⟨f, rfl⟩ : ∃ f, fuel = (rwRun (c :: cs'.takeWhile isWordChar)).length + f :=
            ⟨fuel - (rwRun (c :: cs'.takeWhile isWordChar)).length, by
              rw [List.length_append] at hfuel; omega⟩
          have hrest : (escRewr false (cs'.dropWhile isWordChar) ++ '"' :: S).length ≤ f := by
            rw [List.length_append] at hfuel; omega
          have hplain : ∀ x ∈ rwRun (c :: cs'.takeWhile isWordChar),
              x ≠ '"' ∧ x ≠ '\\' ∧ 32 ≤ x.toNat := by
            intro x hx
            rcases mem_rwRun hx with rfl | hx
            · exact ⟨by decide, by decide, by decide⟩
            · rcases List.mem_cons.mp hx with rfl | hx
              · exact word_plain hw
              · exact word_plain (List.mem_takeWhile_imp hx)
          rw [parseStrAux_append_plain hplain (ih _ hk false S f hrest),
            vopAux_cons_word_false hw]
        | true =>
          rw [escRewr_true_word hw, List.append_assoc] at hfuel ⊢
          obtain ⟨f, rfl⟩ : ∃ f, fuel = (c :: cs'.takeWhile isWordChar).length + f :=
            ⟨fuel - (c :: cs'.takeWhile isWordChar).length, by
              rw [List.length_append] at hfuel; omega⟩
          have hrest : (escRewr false (cs'.dropWhile isWordChar) ++ '"' :: S).length ≤ f := by
            rw [List.length_append] at hfuel; omega
          have hplain : ∀ x ∈ (c :: cs'.takeWhile isWordChar),
              x ≠ '"' ∧ x ≠ '\\' ∧ 32 ≤ x.toNat := by
            intro x hx
            rcases List.mem_cons.mp hx with rfl | hx
            · exact word_plain hw
            · exact word_plain (List.mem_takeWhile_imp hx)
          rw [parseStrAux_append_plain hplain (ih _ hk false S f hrest),
            vopAux_cons_word_true hw]
      · have hgf : escRewr g (c :: cs') = escRewr false (c :: cs') := by
          cases g
          · rfl
          · exact escRewr_not_word_head hw cs'
        rw [hgf] at hfuel ⊢
        rw [vopAux_cons_not_word hw]
        by_cases hq : c = '"'
        · subst hq
          rw [escRewr_false_quote] at hfuel ⊢
          obtain ⟨f, rfl⟩ : ∃ f, fuel = f + 1 := ⟨fuel - 1, by simp at hfuel; omega⟩
          simp only [List.cons_append]
          rw [parseStrAux_esc (show unescChar '"' = some '"' from rfl) f,
            ih _ hcs' false S f (by simp at hfuel ⊢; omega)]
          simp
        by_cases hbs : c = '\\'
        · subst hbs
          rw [escRewr_false_backslash] at hfuel ⊢
          obtain ⟨f, rfl⟩ : ∃ f, fuel = f + 1 := ⟨fuel - 1, by simp at hfuel; omega⟩
          simp only [List.cons_append]
          rw [parseStrAux_esc (show unescChar '\\' = some '\\' from rfl) f,
            ih _ hcs' false S f (by simp at hfuel ⊢; omega)]
          simp
        by_cases h32 : c.toNat < 32
        · have hflag : (decide (c.toNat < 32)) = true := decide_eq_true h32
          by_cases h8 : c.toNat = 8
          · have hcc : c = Char.ofNat 8 := by rw [← h8, Char.ofNat_toNat]
            have hesc : escChar c = ['\\', 'b'] := by
              rw [escChar, if_neg hq, if_neg hbs, if_pos h8]
            rw [escRewr_false_esc_letter hesc (by decide) (by decide) (by decide) (by decide)]
              at hfuel ⊢
            obtain ⟨f, rfl⟩ : ∃ f, fuel = f + 1 := ⟨fuel - 1, by simp at hfuel; omega⟩
            simp only [List.cons_append]
            rw [parseStrAux_esc (show unescChar 'b' = some c by rw [hcc]; rfl) f,
              ih _ hcs' true S f (by simp at hfuel ⊢; omega), hflag]
            simp
          by_cases h9 : c.toNat = 9
          · have hcc : c = Char.ofNat 9 := by rw [← h9, Char.ofNat_toNat]
            have hesc : escChar c = ['\\', 't'] := by
              rw [escChar, if_neg hq, if_neg hbs, if_neg h8, if_pos h9]
            rw [escRewr_false_esc_letter hesc (by decide) (by decide) (by decide) (by decide)]
              at hfuel ⊢
            obtain ⟨f, rfl⟩ : ∃ f, fuel = f + 1 := ⟨fuel - 1, by simp at hfuel; omega⟩
            simp only [List.cons_append]
            rw [parseStrAux_esc (show unescChar 't' = some c by rw [hcc]; rfl) f,
              ih _ hcs' true S f (by simp at hfuel ⊢; omega), hflag]
            simp
          by_cases h10 : c.toNat = 10
          · have hcc : c = Char.ofNat 10 := by rw [← h10, Char.ofNat_toNat]
            have hesc : escChar c = ['\\', 'n'] := by
              rw [escChar, if_neg hq, if_neg hbs, if_neg h8, if_neg h9, if_pos h10]
            rw [escRewr_false_esc_letter hesc (by decide) (by decide) (by decide) (by decide)]
              at hfuel ⊢
            obtain ⟨f, rfl⟩ : ∃ f, fuel = f + 1 := ⟨fuel - 1, by simp at hfuel; omega⟩
            simp only [List.cons_append]
            rw [parseStrAux_esc (show unescChar 'n' = some c by rw [hcc]; rfl) f,
              ih _ hcs' true S f (by simp at hfuel ⊢; omega), hflag]
            simp
          by_cases h12 : c.toNat = 12
          · have hcc : c = Char.ofNat 12 := by rw [← h12, Char.ofNat_toNat]
            have hesc : escChar c = ['\\', 'f'] := by
              rw [escChar, if_neg hq, if_neg hbs, if_neg h8, if_neg h9, if_neg h10, if_pos h12]
            rw [escRewr_false_esc_letter hesc (by decide) (by decide) (by decide) (by decide)]
              at hfuel ⊢
            obtain ⟨f, rfl⟩ : ∃ f, fuel = f + 1 := ⟨fuel - 1, by simp at hfuel; omega⟩
            simp only [List.cons_append]
            rw [parseStrAux_esc (show unescChar 'f' = some c by rw [hcc]; rfl) f,
              ih _ hcs' true S f (by simp at hfuel ⊢; omega), hflag]
            simp
          by_cases h13 : c.toNat = 13
          · have hcc : c = Char.ofNat 13 := by rw [← h13, Char.ofNat_toNat]
            have hesc : escChar c = ['\\', 'r'] := by
              rw [escChar, if_neg hq, if_neg hbs, if_neg h8, if_neg h9, if_neg h10, if_neg h12,
                if_pos h13]
            rw [escRewr_false_esc_letter hesc (by decide) (by decide) (by decide) (by decide)]
              at hfuel ⊢
            obtain ⟨f, rfl⟩ : ∃ f, fuel = f + 1 := ⟨fuel - 1, by simp at hfuel; omega⟩
            simp only [List.cons_append]
            rw [parseStrAux_esc (show unescChar 'r' = some c by rw [hcc]; rfl) f,
              ih _ hcs' true S f (by simp at hfuel ⊢; omega), hflag]
            simp
          · have hesc : escChar c = ['\\', 'u', '0', '0', hexDigitChar (c.toNat / 16),
                hexDigitChar (c.toNat % 16)] := by
              rw [escChar, if_neg hq, if_neg hbs, if_neg h8, if_neg h9, if_neg h10, if_neg h12,
                if_neg h13, if_pos h32]
            rw [escRewr_false_esc_hex h32 hesc] at hfuel ⊢
            obtain ⟨f, rfl⟩ : ∃ f, fuel = f + 1 := ⟨fuel - 1, by simp at hfuel; omega⟩
            simp only [List.cons_append]
            rw [parseStrAux_hex (show hexVal '0' = some 0 from rfl)
              (show hexVal '0' = some 0 from rfl)
              (hexVal_hexDigitChar (c.toNat / 16) (by omega))
              (hexVal_hexDigitChar (c.toNat % 16) (by omega)) f,
              ih _ hcs' true S f (by simp at hfuel ⊢; omega), hflag]
            rw [show 0 * 4096 + 0 * 256 + c.toNat / 16 * 16 + c.toNat % 16 = c.toNat by omega,
              Char.ofNat_toNat]
            simp
        · rw [escRewr_false_plain hq hbs (by omega) hw] at hfuel ⊢
          obtain ⟨f, rfl⟩ : ∃ f, fuel = f + 1 := ⟨fuel - 1, by simp at hfuel; omega⟩
          simp only [List.cons_append]
          rw [parseStrAux_cons_plain hq hbs (by omega) f,
            ih _ hcs' false S f (by simp at hfuel ⊢; omega),
            show (decide (c.toNat < 32)) = false from decide_eq_false (by omega)]
          simp

/-! ## The round trip for whole objects -/

theorem escRewr_false_def (cs : List Char) :
    escRewr false cs = rewriteChars (escapeChars cs) := rfl

theorem parseLit_escRewr (k : String) (T : List Char) :
    parseLit ('"' :: (escRewr false k.data ++ '"' :: T)) = some (vopStr k, T) := by
  rw [parseLit]
  rw [parseStrAux_escRewr k.data.length k.data le_rfl false T _ le_rfl]
  rfl

theorem rewriteChars_qstr' (s : String) (T : List Char) :
    rewriteChars (qstr s ++ T) = '"' :: (escRewr false s.data ++ '"' :: rewriteChars T) := by
  rw [rewriteChars_qstr, escRewr_false_def]
  simp

theorem length_qstr (s : String) : 2 ≤ (qstr s).length := by
  simp [qstr]

theorem length_innerEntriesChars : ∀ ps : List (String × String),
    ps.length ≤ (innerEntriesChars ps).length := by
  intro ps
  induction ps with
  | nil => simp [innerEntriesChars]
  | cons p ps ih =>
    cases ps with
    | nil =>
      have := length_qstr p.1
      simp [innerEntriesChars, innerEntryChars]
      omega
    | cons q ps' =>
      have h1 := length_qstr p.1
      rw [show innerEntriesChars (p :: q :: ps') =
        innerEntryChars p ++ ',' :: innerEntriesChars (q :: ps') from rfl]
      simp only [List.length_cons, List.length_append, innerEntryChars] at *
      omega

theorem innerPairs_roundtrip : ∀ ps : List (String × String), ps ≠ [] →
    ∀ fuel : Nat, ps.length ≤ fuel → ∀ S : List Char,
      parseInnerPairs fuel (rewriteChars (innerEntriesChars ps ++ '}' :: S)) =
        some (ps.map fun r => (vopStr r.1, vopStr r.2), rewriteChars S) := by
  intro ps
  induction ps with
  | nil => intro h; exact absurd rfl h
  | cons p ps ih =>
    intro _ fuel hfuel S
    obtain ⟨f, rfl⟩ : ∃ f, fuel = f + 1 := ⟨fuel - 1, by simp at hfuel; omega⟩
    cases ps with
    | nil =>
      rw [show innerEntriesChars [p] = innerEntryChars p from rfl, innerEntryChars]
      rw [show (qstr p.1 ++ ':' :: qstr p.2) ++ '}' :: S =
        qstr p.1 ++ ':' :: (qstr p.2 ++ '}' :: S) by simp]
      rw [rewriteChars_qstr', rewriteChars_cons_not_word (by decide), rewriteChars_qstr',
        rewriteChars_cons_not_word (by decide)]
      rw [parseInnerPairs, parseLit_escRewr]
      dsimp only [Option.bind]
      simp only []
      rw [parseLit_escRewr]
      dsimp only [Option.bind]
      simp only []
      simp
    | cons q ps' =>
      rw [show innerEntriesChars (p :: q :: ps') =
        innerEntryChars p ++ ',' :: innerEntriesChars (q :: ps') from rfl, innerEntryChars]
      rw [show ((qstr p.1 ++ ':' :: qstr p.2) ++ ',' :: innerEntriesChars (q :: ps')) ++
          '}' :: S =
        qstr p.1 ++ ':' :: (qstr p.2 ++ ',' :: (innerEntriesChars (q :: ps') ++ '}' :: S)) by
          simp]
      rw [rewriteChars_qstr', rewriteChars_cons_not_word (by decide), rewriteChars_qstr',
        rewriteChars_cons_not_word (by decide)]
      rw [parseInnerPairs, parseLit_escRewr]
      dsimp only [Option.bind]
      simp only []
      rw [parseLit_escRewr]
      dsimp only [Option.bind]
      simp only []
      rw [ih (by simp) f (by simp at hfuel ⊢; omega) S]
      rfl

theorem parseVal_str (fuel : Nat) (s : String) (T : List Char) :
    parseVal fuel ('"' :: (escRewr false s.data ++ '"' :: T)) =
      some (.str (vopStr s), T) := by
  rw [parseVal]
  · rw [parseLit_escRewr]
    rfl
  · intro r h
    simp at h

theorem parseVal_obj_nil (fuel : Nat) (T : List Char) :
    parseVal fuel ('{' :: '}' :: T) = some (.obj [], T) := by
  rw [parseVal]

theorem parseVal_obj (fuel : Nat) (ps : List (String × String)) (hps : ps ≠ [])
    (hfuel : ps.length ≤ fuel) (S : List Char) :
    parseVal fuel ('{' :: rewriteChars (innerEntriesChars ps ++ '}' :: S)) =
      some (.obj (ps.map fun r => (vopStr r.1, vopStr r.2)), rewriteChars S) := by
  obtain ⟨p, ps', rfl⟩ : ∃ p ps', ps = p :: ps' := by
    cases ps with
    | nil => exact absurd rfl hps
    | cons p ps' => exact ⟨p, ps', rfl⟩
  obtain ⟨t, ht⟩ : ∃ t, innerEntriesChars (p :: ps') ++ '}' :: S = qstr p.1 ++ t := by
    cases ps' with
    | nil => exact ⟨':' :: qstr p.2 ++ '}' :: S, by simp [innerEntriesChars, innerEntryChars]⟩
    | cons q ps'' =>
      exact ⟨':' :: qstr p.2 ++ ',' :: (innerEntriesChars (q :: ps'') ++ '}' :: S), by
        simp [show innerEntriesChars (p :: q :: ps'') =
          innerEntryChars p ++ ',' :: innerEntriesChars (q :: ps'') from rfl, innerEntryChars]⟩
  have hhead : rewriteChars (innerEntriesChars (p :: ps') ++ '}' :: S) =
      '"' :: (escRewr false p.1.data ++ '"' :: rewriteChars t) := by
    rw [ht, rewriteChars_qstr']
  rw [parseVal]
  · rw [innerPairs_roundtrip (p :: ps') hps fuel hfuel S]
    rfl
  · intro r2 h
    rw [hhead] at h
    simp at h

theorem parseVal_value (f : Nat) (v : QVal) (REST : List Char)
    (hf : ∀ ps, v = QVal.obj ps → ps.length ≤ f) :
    parseVal f (rewriteChars (entryValChars v ++ REST)) = some (vopVal v, rewriteChars REST) := by
  cases v with
  | str s =>
    rw [show entryValChars (QVal.str s) = qstr s from rfl, rewriteChars_qstr', parseVal_str]
    rfl
  | obj ps =>
    cases ps with
    | nil =>
      rw [show entryValChars (QVal.obj []) ++ REST = '{' :: '}' :: REST from rfl,
        rewriteChars_cons_not_word (by decide), rewriteChars_cons_not_word (by decide),
        parseVal_obj_nil]
      rfl
    | cons p ps' =>
      rw [show entryValChars (QVal.obj (p :: ps')) ++ REST =
        '{' :: (innerEntriesChars (p :: ps') ++ '}' :: REST) by simp [entryValChars, stringifyInner],
        rewriteChars_cons_not_word (by decide),
        parseVal_obj f (p :: ps') (by simp) (hf _ rfl) REST]
      rfl

theorem length_entryChars (e : String × QVal) : 5 ≤ (entryChars e).length := by
  have h1 := length_qstr e.1
  rcases e with ⟨k, v⟩
  cases v with
  | str s =>
    have h2 := length_qstr s
    simp [entryChars, entryValChars] at *
    omega
  | obj ps =>
    simp [entryChars, entryValChars, stringifyInner] at *
    omega

theorem obj_fuel_bound {k : String} {ps : List (String × String)} {es : Query} {fuel : Nat}
    (hfuel : (entriesChars ((k, QVal.obj ps) :: es)).length ≤ fuel + 1) : ps.length ≤ fuel := by
  have hinner := length_innerEntriesChars ps
  have hq := length_qstr k
  cases es with
  | nil =>
    simp [entriesChars, entryChars, entryValChars, stringifyInner] at hfuel
    omega
  | cons e' es' =>
    rw [show entriesChars ((k, QVal.obj ps) :: e' :: es') =
      entryChars (k, QVal.obj ps) ++ ',' :: entriesChars (e' :: es') from rfl] at hfuel
    simp [entryChars, entryValChars, stringifyInner] at hfuel
    omega

theorem entries_tail_bound {e : String × QVal} {es : Query} {fuel : Nat} (hne : es ≠ [])
    (hfuel : (entriesChars (e :: es)).length ≤ fuel + 1) : (entriesChars es).length ≤ fuel := by
  have h5 := length_entryChars e
  obtain ⟨e', es', rfl⟩ : ∃ e' es', es = e' :: es' := by
    cases es with
    | nil => exact absurd rfl hne
    | cons e' es' => exact ⟨e', es', rfl⟩
  rw [show entriesChars (e :: e' :: es') = entryChars e ++ ',' :: entriesChars (e' :: es')
    from rfl] at hfuel
  simp at hfuel
  omega

theorem topPairs_roundtrip : ∀ es : Query, es ≠ [] →
    ∀ fuel : Nat, (entriesChars es).length ≤ fuel → ∀ S : List Char,
      parseTopPairs fuel (rewriteChars (entriesChars es ++ '}' :: S)) =
        some (es.map fun e => (vopStr e.1, vopVal e.2), rewriteChars S) := by
  intro es
  induction es with
  | nil => intro h; exact absurd rfl h
  | cons e es ih =>
    intro _ fuel hfuel S
    obtain ⟨f, rfl⟩ : ∃ f, fuel = f + 1 :=
      ⟨fuel - 1, by have := length_entryChars e; cases es with
        | nil => simp [entriesChars] at hfuel ⊢; omega
        | cons e' es' =>
          rw [show entriesChars (e :: e' :: es') =
            entryChars e ++ ',' :: entriesChars (e' :: es') from rfl] at hfuel
          simp at hfuel ⊢; omega⟩
    rcases e with ⟨k, v⟩
    cases es with
    | nil =>
      rw [show entriesChars [(k, v)] ++ '}' :: S =
        qstr k ++ ':' :: (entryValChars v ++ '}' :: S) by simp [entriesChars, entryChars]]
      rw [rewriteChars_qstr', rewriteChars_cons_not_word (by decide)]
      rw [parseTopPairs, parseLit_escRewr]
      dsimp only [Option.bind]
      simp only []
      rw [parseVal_value f v ('}' :: S) fun ps hps => obj_fuel_bound (hps ▸ hfuel)]
      dsimp only [Option.bind]
      rw [rewriteChars_cons_not_word (by decide)]
      simp only []
      rfl
    | cons e' es' =>
      rw [show entriesChars ((k, v) :: e' :: es') ++ '}' :: S =
        qstr k ++ ':' :: (entryValChars v ++ ',' :: (entriesChars (e' :: es') ++ '}' :: S)) by
          simp [show entriesChars ((k, v) :: e' :: es') =
            entryChars (k, v) ++ ',' :: entriesChars (e' :: es') from rfl, entryChars]]
      rw [rewriteChars_qstr', rewriteChars_cons_not_word (by decide)]
      rw [parseTopPairs, parseLit_escRewr]
      dsimp only [Option.bind]
      simp only []
      rw [parseVal_value f v (',' :: (entriesChars (e' :: es') ++ '}' :: S))
        fun ps hps => obj_fuel_bound (hps ▸ hfuel)]
      dsimp only [Option.bind]
      rw [rewriteChars_cons_not_word (by decide)]
      simp only []
      rw [ih (by simp) f (entries_tail_bound (by simp) hfuel) S]
      rfl

/-- The stringify / regex-rewrite / re-parse pipeline always succeeds and
produces exactly the `filterOf` description of its input. -/
theorem parseQ_pipeline (q : Query) :
    parseQ (rewriteOps (stringifyQ q)) = some (filterOf q) := by
  cases q with
  | nil => rfl
  | cons e es =>
    obtain ⟨t, ht⟩ : ∃ t, entriesChars (e :: es) ++ '}' :: [] = qstr e.1 ++ t := by
      cases es with
      | nil =>
        exact ⟨':' :: entryValChars e.2 ++ '}' :: [], by simp [entriesChars, entryChars]⟩
      | cons e' es' =>
        exact ⟨':' :: entryValChars e.2 ++ ',' :: (entriesChars (e' :: es') ++ '}' :: []), by
          simp [show entriesChars (e :: e' :: es') =
            entryChars e ++ ',' :: entriesChars (e' :: es') from rfl, entryChars]⟩
    have hhead : rewriteChars (entriesChars (e :: es) ++ '}' :: []) =
        '"' :: (escRewr false e.1.data ++ '"' :: rewriteChars t) := by
      rw [ht, rewriteChars_qstr']
    have hdata : (rewriteOps (stringifyQ (e :: es))).data =
        '{' :: rewriteChars (entriesChars (e :: es) ++ '}' :: []) := by
      show rewriteChars ('{' :: entriesChars (e :: es) ++ ['}']) = _
      rw [show '{' :: entriesChars (e :: es) ++ ['}'] =
        '{' :: (entriesChars (e :: es) ++ '}' :: []) by simp]
      rw [rewriteChars_cons_not_word (by decide)]
    have hfuel : (entriesChars (e :: es)).length ≤
        (rewriteChars (entriesChars (e :: es) ++ '}' :: [])).length := by
      have h1 := length_le_rewriteChars (entriesChars (e :: es) ++ '}' :: [])
      simp at h1 ⊢
      omega
    rw [parseQ, hdata, hhead]
    show (match parseTopPairs ('"' :: (escRewr false e.1.data ++ '"' :: rewriteChars t)).length
        ('"' :: (escRewr false e.1.data ++ '"' :: rewriteChars t)) with
      | some (q, []) => some q
      | _ => none) = some (filterOf (e :: es))
    rw [← hhead, topPairs_roundtrip (e :: es) (by simp) _ hfuel [], rewriteChars_nil]
    rfl

/-- Lines 14–31 of the controller, as one equation: the filter handed to the
storage layer is the `filterOf` description of the reserved-key-stripped
query. -/
theorem getBootcampsFilter_eq (rq : Query) :
    getBootcampsFilter rq = some (filterOf (reqQueryOf rq)) :=
  parseQ_pipeline (reqQueryOf rq)

/-! ## Supporting facts about the structural description -/

theorem vopAux_eq_or_dollar : ∀ (cs : List Char) (g : Bool) (acc : List Char),
    vopAux g acc cs = acc.reverse ++ cs ∨ '$' ∈ vopAux g acc cs := by
  intro cs
  induction cs with
  | nil =>
    intro g acc
    rw [vopAux, vopFlush]
    split
    · left; simp
    · rw [rwRun]
      split
      · right; simp
      · left; simp
  | cons c cs ih =>
    intro g acc
    by_cases hw : isWordChar c
    · rw [vopAux, if_pos hw]
      rcases ih g (c :: acc) with h | h
      · left; rw [h]; simp
      · right; exact h
    · rw [vopAux, if_neg hw]
      have hflush : vopFlush g acc.reverse = acc.reverse ∨ '$' ∈ vopFlush g acc.reverse := by
        rw [vopFlush]
        split
        · left; rfl
        · rw [rwRun]
          split
          · right; simp
          · left; rfl
      rcases hflush with hf | hf
      · rcases ih (decide (c.toNat < 32)) [] with h | h
        · left; rw [hf, h]; simp
        · right
          rw [List.mem_append]
          right
          exact List.mem_cons_of_mem c h
      · right
        rw [List.mem_append]
        left
        exact hf

theorem vopStr_eq_or_dollar (s : String) : vopStr s = s ∨ '$' ∈ (vopStr s).data := by
  rcases vopAux_eq_or_dollar s.data false [] with h | h
  · left
    rw [vopStr]
    rw [show ([] : List Char).reverse ++ s.data = s.data by simp] at h
    rw [h]
  · right
    rw [vopStr]
    simpa using h

/-! ## Claim C1 -/

/-- Claim C1, as stated, is false on the code: the regex rewrite is applied
to the whole serialized filter, so a top-level key that is itself a
comparison token is also rewritten.  At `{gt: "5"}` the pipeline produces the
key `$gt`, while the claim (only token values rewritten, keys unchanged,
captured by `specC1Filter`) predicts the key `gt`. -/
theorem claimC1_counterexample :
    getBootcampsFilter [("gt", QVal.str "5")] = some [("$gt", QVal.str "5")] ∧
    specC1Filter [("gt", QVal.str "5")] = [("gt", QVal.str "5")] ∧
    getBootcampsFilter [("gt", QVal.str "5")] ≠
      some (specC1Filter [("gt", QVal.str "5")]) :=
  ⟨by decide, by decide, by decide⟩

/-- Claim C1 (amended): after stripping reserved keys, the pipeline rewrites
every maximal word run equal to one of the five comparison tokens by
prefixing `'$'` — in nested operator keys (where each bare token becomes its
`$`-operator form, as the five conjuncts witness), but equally in top-level
keys and inside values; every string without such a standalone token run
passes through unchanged.  `filterOf` maps this per-string description
(`vopStr`) over keys and values. -/
theorem getBootcampsFilter_rewrites_word_runs (rq : Query) :
    getBootcampsFilter rq = some (filterOf (reqQueryOf rq)) ∧
    vopStr "gt" = "$gt" ∧ vopStr "gte" = "$gte" ∧ vopStr "lt" = "$lt" ∧
    vopStr "lte" = "$lte" ∧ vopStr "in" = "$in" :=
  ⟨getBootcampsFilter_eq rq, by decide, by decide, by decide, by decide, by decide⟩

/-! ## Claim C5 -/

/-- Claim C5: for every raw query, no reserved key (`select`, `sort`,
`page`, `limit`) appears as a top-level field of the filter handed to the
storage layer: the copy has them deleted before serialization, and the
rewrite can only map a key to itself or introduce a `'$'`, which no reserved
word contains. -/
theorem filter_excludes_reserved_keys (rq : Query) (f : Query)
    (h : getBootcampsFilter rq = some f) :
    ∀ p ∈ f, p.1 ∉ removeFields := by
  rw [getBootcampsFilter_eq] at h
  obtain rfl : f = filterOf (reqQueryOf rq) := (Option.some.inj h).symm
  intro p hp
  simp only [filterOf, List.mem_map] at hp
  obtain ⟨q, hq, rfl⟩ := hp
  have hq1 : q.1 ∉ removeFields := by
    have := List.of_mem_filter hq
    simpa using this
  rcases vopStr_eq_or_dollar q.1 with he | hd
  · simpa [he] using hq1
  · intro hmem
    simp only [removeFields, List.mem_cons, List.not_mem_nil, or_false] at hmem
    rcases hmem with hm | hm | hm | hm <;> rw [hm] at hd <;> exact absurd hd (by decide)

/-- Witness for C5 at a concrete query carrying both a reserved key and a
token key: the single field of the resulting filter is not reserved. -/
theorem filter_excludes_reserved_keys_witness :
    ("$gt", QVal.str "5").1 ∉ removeFields :=
  filter_excludes_reserved_keys [("select", QVal.str "a"), ("gt", QVal.str "5")]
    [("$gt", QVal.str "5")] (by decide) ("$gt", QVal.str "5") (by decide)

/-! ## Claim C6 -/

/-- Claim C6: the filter construction (stringify, operator rewrite,
re-parse) never fails — the re-parse always returns a filter — and the whole
list handler, including the (total) `parseInt`-based page/limit parsing,
always reaches the storage layer with a query.  `none` would model a thrown
error; it is unreachable. -/
theorem filter_pipeline_total (rq : Query) (db : List Doc) :
    (∃ f, getBootcampsFilter rq = some f) ∧ ∃ out, getBootcamps rq db = some out := by
  have h := getBootcampsFilter_eq rq
  refine ⟨⟨filterOf (reqQueryOf rq), h⟩, ?_⟩
  rw [getBootcamps, h]
  exact ⟨_, rfl⟩

theorem jsOr_none (d : Int) : jsOr none d = d := rfl

theorem jsOr_some (n d : Int) : jsOr (some n) d = if n = 0 then d else n := rfl

/-! ## Claim C2 -/

/-- Claim C2, as stated, is false on the code: `pagination.next` is computed
against `Bootcamp.countDocuments()` — the size of the whole collection,
ignoring the filter — not against the number of records matching the filter.
With two stored documents of which the filter `{name: "x"}` matches one, and
`page = 1`, `limit = 1`, the handler sets `next = {page: 2, limit: 1}` even
though `page·limit = 1 < 1` is false. -/
theorem claimC2_counterexample :
    (getBootcamps [("name", QVal.str "x"), ("limit", QVal.str "1")]
        [[("name", "x")], [("name", "y")]]).map (fun o => o.pagination.next) =
      some (some (2, 1)) ∧
    getBootcampsFilter [("name", QVal.str "x"), ("limit", QVal.str "1")] =
      some [("name", QVal.str "x")] ∧
    matchedCount [("name", QVal.str "x")] [[("name", "x")], [("name", "y")]] = 1 ∧
    pageOf [("name", QVal.str "x"), ("limit", QVal.str "1")] *
      limitOf [("name", QVal.str "x"), ("limit", QVal.str "1")] = 1 ∧
    ¬((1 : Int) < (1 : Nat)) :=
  ⟨by decide, by decide, by decide, by decide, by decide⟩

/-- Claim C2 (amended): `pagination.next` is present iff
`page·limit < totalCount` where `totalCount` is the unconditional count of
all documents in the collection (`countDocuments()` takes no filter), and
when present it carries `{page: page+1, limit}`. -/
theorem pagination_next_iff_unfiltered_total (rq : Query) (db : List Doc) (out : ListOutcome)
    (h : getBootcamps rq db = some out) :
    out.totalEntries = db.length ∧
    (out.pagination.next ≠ none ↔ pageOf rq * limitOf rq < (db.length : Int)) ∧
    (pageOf rq * limitOf rq < (db.length : Int) →
      out.pagination.next = some (pageOf rq + 1, limitOf rq)) := by
  rw [getBootcamps, getBootcampsFilter_eq, Option.map_some'] at h
  obtain rfl : out = _ := (Option.some.inj h).symm
  refine ⟨rfl, ?_, ?_⟩
  · by_cases hc : pageOf rq * limitOf rq < (db.length : Int)
    · simp [hc]
    · simp [hc]
  · intro hc
    simp [hc]

/-- Witness for the amended C2 at a concrete request and collection. -/
theorem pagination_next_iff_unfiltered_total_witness :
    (⟨⟨[], 0, 25⟩, 1, ⟨none, none⟩⟩ : ListOutcome).totalEntries =
      ([([] : Doc)] : List Doc).length ∧
    ((⟨⟨[], 0, 25⟩, 1, ⟨none, none⟩⟩ : ListOutcome).pagination.next ≠ none ↔
      pageOf [] * limitOf [] < (([([] : Doc)] : List Doc).length : Int)) ∧
    (pageOf [] * limitOf [] < (([([] : Doc)] : List Doc).length : Int) →
      (⟨⟨[], 0, 25⟩, 1, ⟨none, none⟩⟩ : ListOutcome).pagination.next =
        some (pageOf [] + 1, limitOf [])) :=
  pagination_next_iff_unfiltered_total [] [([] : Doc)] ⟨⟨[], 0, 25⟩, 1, ⟨none, none⟩⟩
    (by decide)

/-! ## Claim C3 -/

/-- Claim C3, as stated, is false on the code: `parseInt(x, 10) || default`
only substitutes the default for `NaN` and `0` (the falsy values), so a
negative numeric parameter passes straight through: `page=-5` yields
`page = -5`, not `1`. -/
theorem claimC3_counterexample :
    pageOf [("page", QVal.str "-5")] = -5 ∧ ¬(1 ≤ pageOf [("page", QVal.str "-5")]) ∧
    limitOf [("limit", QVal.str "-5")] = -5 ∧ ¬(1 ≤ limitOf [("limit", QVal.str "-5")]) :=
  ⟨by decide, by decide, by decide, by decide⟩

/-- Claim C3 (amended): absent, non-numeric and zero parameters default to
`page = 1` and `limit = 25`, and `page ≥ 1 ∧ limit ≥ 1` holds provided
neither parameter parses to a negative integer — a negative parse passes
through `||` unchanged. -/
theorem page_limit_defaults_nonneg (rq : Query)
    (hp : ∀ n : Int, parseIntParam rq "page" = some n → 0 ≤ n)
    (hl : ∀ n : Int, parseIntParam rq "limit" = some n → 0 ≤ n) :
    1 ≤ pageOf rq ∧ 1 ≤ limitOf rq ∧
    (parseIntParam rq "page" = none → pageOf rq = 1) ∧
    (parseIntParam rq "limit" = none → limitOf rq = 25) ∧
    (parseIntParam rq "page" = some 0 → pageOf rq = 1) ∧
    (parseIntParam rq "limit" = some 0 → limitOf rq = 25) := by
  refine ⟨?_, ?_, ?_, ?_, ?_, ?_⟩
  · rw [pageOf]
    rcases hpp : parseIntParam rq "page" with _ | n
    · rw [jsOr_none]
    · rw [jsOr_some]
      have := hp n hpp
      split <;> omega
  · rw [limitOf]
    rcases hpp : parseIntParam rq "limit" with _ | n
    · rw [jsOr_none]; omega
    · rw [jsOr_some]
      have := hl n hpp
      split <;> omega
  · intro hnone; rw [pageOf, hnone, jsOr_none]
  · intro hnone; rw [limitOf, hnone, jsOr_none]
  · intro hzero; rw [pageOf, hzero, jsOr_some]; simp
  · intro hzero; rw [limitOf, hzero, jsOr_some]; simp

/-- Witness for the amended C3 at the empty query (both parameters absent). -/
theorem page_limit_defaults_nonneg_witness :
    1 ≤ pageOf [] ∧ 1 ≤ limitOf [] ∧
    (parseIntParam [] "page" = none → pageOf [] = 1) ∧
    (parseIntParam [] "limit" = none → limitOf [] = 25) ∧
    (parseIntParam [] "page" = some 0 → pageOf [] = 1) ∧
    (parseIntParam [] "limit" = some 0 → limitOf [] = 25) :=
  page_limit_defaults_nonneg []
    (fun n h => by
      rw [show parseIntParam [] "page" = none from by decide] at h
      exact Option.noConfusion h)
    (fun n h => by
      rw [show parseIntParam [] "limit" = none from by decide] at h
      exact Option.noConfusion h)

/-! ## Claim C4 -/

/-- Claim C4, as stated, is false on the code: `pagination.prev` is keyed on
`skip > 0`, and the claimed equivalence with `page > 1` breaks when `limit`
parses negative: at `page=2, limit=-5` the skip is `-5`, so no `prev` is set
although `page > 1`. -/
theorem claimC4_counterexample :
    pageOf [("page", QVal.str "2"), ("limit", QVal.str "-5")] = 2 ∧
    ((1 : Int) < 2) ∧
    (getBootcamps [("page", QVal.str "2"), ("limit", QVal.str "-5")] []).map
      (fun o => o.pagination.prev) = some none :=
  ⟨by decide, by decide, by decide⟩

/-- Claim C4 (amended): `skip = (page-1)·limit` exactly as issued to the
storage layer, and `pagination.prev` is present iff `skip > 0` (which under
`limit ≥ 1` is the claim's `page > 1`), carrying `{page: page-1, limit}`. -/
theorem pagination_prev_iff_skip_pos (rq : Query) (db : List Doc) (out : ListOutcome)
    (h : getBootcamps rq db = some out) :
    out.find.skip = (pageOf rq - 1) * limitOf rq ∧
    (out.pagination.prev ≠ none ↔ 0 < out.find.skip) ∧
    (0 < out.find.skip → out.pagination.prev = some (pageOf rq - 1, limitOf rq)) := by
  rw [getBootcamps, getBootcampsFilter_eq, Option.map_some'] at h
  obtain rfl : out = _ := (Option.some.inj h).symm
  refine ⟨rfl, ?_, ?_⟩
  · by_cases hc : 0 < (pageOf rq - 1) * limitOf rq
    · simp [hc]
    · simp [hc]
  · intro hc
    simp [hc]

/-- Witness for the amended C4 at `page=2` with default limit. -/
theorem pagination_prev_iff_skip_pos_witness :
    (⟨⟨[], 25, 25⟩, 0, ⟨none, some (1, 25)⟩⟩ : ListOutcome).find.skip =
      (pageOf [("page", QVal.str "2")] - 1) * limitOf [("page", QVal.str "2")] ∧
    ((⟨⟨[], 25, 25⟩, 0, ⟨none, some (1, 25)⟩⟩ : ListOutcome).pagination.prev ≠ none ↔
      0 < (⟨⟨[], 25, 25⟩, 0, ⟨none, some (1, 25)⟩⟩ : ListOutcome).find.skip) ∧
    (0 < (⟨⟨[], 25, 25⟩, 0, ⟨none, some (1, 25)⟩⟩ : ListOutcome).find.skip →
      (⟨⟨[], 25, 25⟩, 0, ⟨none, some (1, 25)⟩⟩ : ListOutcome).pagination.prev =
        some (pageOf [("page", QVal.str "2")] - 1, limitOf [("page", QVal.str "2")])) :=
  pagination_prev_iff_skip_pos [("page", QVal.str "2")] [] ⟨⟨[], 25, 25⟩, 0, ⟨none, some (1, 25)⟩⟩
    (by decide)

/-! ## Claim C7 -/

/-- Claim C7, as stated, is false on the code: `getBootcampsInRadius`
performs no validation of the distance parameter.  For the non-numeric
distance `"abc"` the coercion yields NaN, and the handler issues the
geospatial find with a NaN radius instead of surfacing a 400-equivalent
validation error. -/
theorem claimC7_counterexample :
    strToNumber "abc" = JsNum.nan ∧
    getBootcampsInRadius 0 0 "abc" = RadiusOutcome.issuedFind 0 0 JsNum.nan ∧
    isValidationError (getBootcampsInRadius 0 0 "abc") = false ∧
    reachesStorage (getBootcampsInRadius 0 0 "abc") = true :=
  ⟨by decide, by decide, by decide, by decide⟩

/-- Claim C7 (amended): a non-numeric distance is not treated as malformed
input: the handler always reaches the storage layer, passing radius
`NaN` (= `ToNumber(distance) / 6378`) in the `$centerSphere` filter, and
never produces a 400-equivalent validation error. -/
theorem radius_no_validation_on_nan (lat lng : ℚ) (s : String)
    (h : strToNumber s = JsNum.nan) :
    getBootcampsInRadius lat lng s = RadiusOutcome.issuedFind lng lat JsNum.nan ∧
    isValidationError (getBootcampsInRadius lat lng s) = false ∧
    reachesStorage (getBootcampsInRadius lat lng s) = true := by
  rw [getBootcampsInRadius, h]
  exact ⟨rfl, rfl, rfl⟩

/-- Witness for the amended C7 at the non-numeric distance string. -/
theorem radius_no_validation_on_nan_witness :
    getBootcampsInRadius 0 0 "abc" = RadiusOutcome.issuedFind 0 0 JsNum.nan ∧
    isValidationError (getBootcampsInRadius 0 0 "abc") = false ∧
    reachesStorage (getBootcampsInRadius 0 0 "abc") = true :=
  radius_no_validation_on_nan 0 0 "abc" (by decide)

/-! ## Claim C8 -/

/-- Claim C8: for every numeric distance the handler computes the angular
radius as exactly `distance / 6378` (numbers modelled as exact rationals; at
the claim's own scenario `distanceKm = 6378` the IEEE computation is exact
as well), and for `distanceKm = 6378` the radius is exactly `1`. -/
theorem radius_is_distance_div_earth (lat lng d : ℚ) (s : String)
    (h : strToNumber s = JsNum.num d) :
    getBootcampsInRadius lat lng s = RadiusOutcome.issuedFind lng lat (JsNum.num (d / 6378)) ∧
    (d = 6378 → getBootcampsInRadius lat lng s = RadiusOutcome.issuedFind lng lat (JsNum.num 1)) := by
  rw [getBootcampsInRadius, h]
  constructor
  · rw [jsDiv, if_neg (by norm_num)]
  · intro hd
    subst hd
    rw [jsDiv, if_neg (by norm_num)]
    norm_num

/-- Witness for C8 at `distanceKm = "6378"`: angular radius exactly 1. -/
theorem radius_is_distance_div_earth_witness :
    getBootcampsInRadius 0 0 "6378" = RadiusOutcome.issuedFind 0 0 (JsNum.num (6378 / 6378)) ∧
    ((6378 : ℚ) = 6378 → getBootcampsInRadius 0 0 "6378" =
      RadiusOutcome.issuedFind 0 0 (JsNum.num 1)) :=
  radius_is_distance_div_earth 0 0 6378 "6378" (by decide)

/-! ## Claim C9 -/

/-- Claim C9: the upload size check is `file.size > MAX_FILE_UPLOAD`, a
strict inequality: a file whose size equals the configured maximum passes
the check and the handler proceeds to the move/rename, while a strictly
larger file is rejected with the 400-equivalent size error. -/
theorem photo_upload_size_check_strict (id bid : String) (f : UploadFile)
    (maxFileUpload : Nat) (him : jsStartsWith f.mimetype "image" = true) :
    (f.size ≤ maxFileUpload →
      bootcampPhotoUpload id (some bid) (some f) maxFileUpload =
        UploadOutcome.moveAndRespond ("photo_" ++ bid ++ extOf f.name)) ∧
    (maxFileUpload < f.size →
      bootcampPhotoUpload id (some bid) (some f) maxFileUpload =
        UploadOutcome.errorNext 400
          ("Please upload an image less than " ++ toString maxFileUpload ++ " bytes")) := by
  rw [bootcampPhotoUpload]
  constructor
  · intro hsz
    rw [if_neg (by simp [him]), if_neg (by omega)]
  · intro hsz
    rw [if_neg (by simp [him]), if_pos hsz]

/-- Witness for C9: a 100-byte image against a 100-byte maximum is
accepted. -/
theorem photo_upload_size_check_strict_witness :
    ((⟨"a.png", "image/png", 100⟩ : UploadFile).size ≤ 100 →
      bootcampPhotoUpload "b1" (some "b1") (some ⟨"a.png", "image/png", 100⟩) 100 =
        UploadOutcome.moveAndRespond ("photo_" ++ "b1" ++ extOf (⟨"a.png", "image/png", 100⟩ : UploadFile).name)) ∧
    (100 < (⟨"a.png", "image/png", 100⟩ : UploadFile).size →
      bootcampPhotoUpload "b1" (some "b1") (some ⟨"a.png", "image/png", 100⟩) 100 =
        UploadOutcome.errorNext 400
          ("Please upload an image less than " ++ toString 100 ++ " bytes")) :=
  photo_upload_size_check_strict "b1" "b1" ⟨"a.png", "image/png", 100⟩ 100 (by decide)

/-! ## Claim C10 -/

/-- Claim C10: the upload handler checks bootcamp existence first, so a
request naming an id with no stored bootcamp gets the 404-equivalent
not-found error regardless of the attached file — whether the request
carries no file at all or an arbitrary (possibly invalid) one. -/
theorem photo_upload_checks_order_404_first (id : String) (files : Option UploadFile)
    (maxFileUpload : Nat) :
    bootcampPhotoUpload id none files maxFileUpload =
      UploadOutcome.errorNext 404 ("Bootcamp id " ++ id ++ " not found") := rfl
